import Mathlib

set_option linter.unusedSectionVars false

/-!
Shallow embedding of the cache2go library (cacheitem.go / cachetable.go).

Modelling conventions:
* Go `time.Time` timestamps and `time.Duration` values are modelled as `Int`
  (nanosecond counts); `time.Now()` becomes an explicit `now : Int` argument.
* The Go map `map[interface{}]*CacheItem` is modelled as an association list
  with decidable-equality keys; a well-formed table has no duplicate keys
  (a Go map cannot hold two bindings for one key).
* User callbacks are opaque external code: the model records whether each
  callback is installed (a `Bool` for `addedItem`, `aboutToDeleteItem` and the
  per-item `aboutToExpire`) and every operation returns the trace of callback
  invocations it performs, as a list of `CacheEvent`s, in invocation order.
  The data-loader callback returns a value, so it is kept as an actual
  function `Option (α → Option (CacheItem α β))`.
* `time.Timer` handles: `cleanupTimer : Option Bool` is `none` when the Go
  field is nil, `some true` when a timer is armed (pending), `some false`
  when the handle exists but has been stopped.
* `accessCount` is an `int64` in Go that is only ever incremented; overflow
  is unreachable in any feasible execution, so it is modelled as `Nat`.
-/

namespace Cache2go

/-- Errors surfaced by the cache core (errors.go). -/
inductive CacheError where
  | ErrKeyNotFound
  | ErrKeyNotFoundOrLoadable
deriving DecidableEq

/-- Trace of a user-callback invocation, tagged with the key it concerns. -/
inductive CacheEvent (α : Type) where
  | onAdded : α → CacheEvent α
  | onAboutToDelete : α → CacheEvent α
  | expiryCallback : α → CacheEvent α
deriving DecidableEq

/-- Structure of an item in the cache (cacheitem.go, `CacheItem`). -/
structure CacheItem (α β : Type) where
  key : α
  data : β
  lifeSpan : Int
  createdOn : Int
  accessedOn : Int
  accessCount : Nat
  aboutToExpire : Bool
deriving DecidableEq

variable {α β : Type} [DecidableEq α]

/-- Go `CreateCacheItem`: a fresh item with `createdOn = accessedOn = now`,
`accessCount = 0` and no expiry callback. -/
def CreateCacheItem (key : α) (lifeSpan : Int) (data : β) (now : Int) :
    CacheItem α β :=
  { key := key
    lifeSpan := lifeSpan
    createdOn := now
    accessedOn := now
    accessCount := 0
    aboutToExpire := false
    data := data }

/-- Go `CacheItem.KeepAlive`: set `accessedOn = now`, increment `accessCount`. -/
def CacheItem.KeepAlive (item : CacheItem α β) (now : Int) : CacheItem α β :=
  { item with accessedOn := now, accessCount := item.accessCount + 1 }

/-- Go `CacheItem.SetAboutToExpireCallback`, with the installed callback
abstracted to its presence flag. -/
def CacheItem.SetAboutToExpireCallback (item : CacheItem α β) (b : Bool) :
    CacheItem α β :=
  { item with aboutToExpire := b }

/-- Lookup in the association list modelling the Go map (read `table.items[key]`). -/
def lookupKey : List (α × CacheItem α β) → α → Option (CacheItem α β)
  | [], _ => none
  | (k, v) :: rest, key => if k = key then some v else lookupKey rest key

/-- Store into the association list modelling the Go map
(write `table.items[key] = item`): replace in place, else append. -/
def setKey : List (α × CacheItem α β) → α → CacheItem α β → List (α × CacheItem α β)
  | [], key, v => [(key, v)]
  | (k, w) :: rest, key, v =>
      if k = key then (key, v) :: rest else (k, w) :: setKey rest key v

/-- Removal from the association list modelling the Go map
(`delete(table.items, key)`). -/
def eraseKey : List (α × CacheItem α β) → α → List (α × CacheItem α β)
  | [], _ => []
  | (k, v) :: rest, key => if k = key then rest else (k, v) :: eraseKey rest key

/-- Structure of a table with items in the cache (cachetable.go, `CacheTable`).
The logger field is omitted: `log` only writes diagnostics and has no effect
on any other field. -/
structure CacheTable (α β : Type) where
  items : List (α × CacheItem α β)
  cleanupTimer : Option Bool
  cleanupInterval : Int
  loadData : Option (α → Option (CacheItem α β))
  addedItem : Bool
  aboutToDeleteItem : Bool

/-- Well-formedness: a Go map has at most one binding per key. -/
abbrev WF (t : CacheTable α β) : Prop := (t.items.map Prod.fst).Nodup

/-- Go `CacheTable.Count`. -/
def CacheTable.Count (t : CacheTable α β) : Nat := t.items.length

/-- Go `CacheTable.Exists`: membership test, no side effects. -/
def CacheTable.Exists (t : CacheTable α β) (key : α) : Bool :=
  (lookupKey t.items key).isSome

/-- Go `CacheTable.Foreach`: a read-only snapshot iteration; the model returns
the visited (key, item) pairs in visiting order. -/
def CacheTable.Foreach (t : CacheTable α β) : List (α × CacheItem α β) :=
  t.items

/-- The callback trace of one `Delete` of a present item: the table-level
`aboutToDeleteItem` callback (when installed), then the item's own
`aboutToExpire` callback (when installed), in that order. -/
def deleteEvents (tableFlag : Bool) (key : α) (item : CacheItem α β) :
    List (CacheEvent α) :=
  (if tableFlag then [CacheEvent.onAboutToDelete key] else []) ++
  (if item.aboutToExpire then [CacheEvent.expiryCallback key] else [])

/-- Go `CacheTable.Delete`: on a present key, invoke `aboutToDeleteItem` (if
set), then the item's `aboutToExpire` (if set), then remove the key; return
the removed item. On an absent key, fail with `ErrKeyNotFound`. -/
def CacheTable.Delete (t : CacheTable α β) (key : α) :
    Except CacheError (CacheItem α β) × CacheTable α β × List (CacheEvent α) :=
  match lookupKey t.items key with
  | none => (Except.error CacheError.ErrKeyNotFound, t, [])
  | some r =>
      (Except.ok r,
       { t with items := eraseKey t.items key },
       deleteEvents t.aboutToDeleteItem key r)

/-- The `for key, item := range items` loop of Go `CacheTable.expirationCheck`,
threading the live table, the running `smallestDuration` and the emitted
callback trace. Expired items are removed via `CacheTable.Delete`, exactly as
the source does. -/
def expirationCheckLoop (now : Int) :
    List (α × CacheItem α β) → CacheTable α β → Int →
      CacheTable α β × Int × List (CacheEvent α)
  | [], t, smallestDuration => (t, smallestDuration, [])
  | (key, item) :: rest, t, smallestDuration =>
      if item.lifeSpan = 0 then
        expirationCheckLoop now rest t smallestDuration
      else if item.lifeSpan ≤ now - item.accessedOn then
        let d := t.Delete key
        let r := expirationCheckLoop now rest d.2.1 smallestDuration
        (r.1, r.2.1, d.2.2 ++ r.2.2)
      else
        let remaining := item.lifeSpan - (now - item.accessedOn)
        let sd :=
          if smallestDuration = 0 ∨ remaining < smallestDuration then remaining
          else smallestDuration
        expirationCheckLoop now rest t sd

/-- Go `CacheTable.expirationCheck`: stop any existing timer, scan all items
(deleting expired ones and computing the smallest remaining lifespan), store
it in `cleanupInterval`, and arm a fresh timer when it is positive. -/
def CacheTable.expirationCheck (t : CacheTable α β) (now : Int) :
    CacheTable α β × List (CacheEvent α) :=
  let t1 := { t with cleanupTimer := t.cleanupTimer.map (fun _ => false) }
  let r := expirationCheckLoop now t1.items t1 0
  let smallestDuration := r.2.1
  ({ r.1 with
      cleanupInterval := smallestDuration
      cleanupTimer :=
        if 0 < smallestDuration then some true else r.1.cleanupTimer },
   r.2.2)

/-- Go `CacheTable.Add`: create a fresh item, store it (overwriting any prior
binding), fire `addedItem` if set, then run `expirationCheck` when
`lifeSpan > 0 && (expDur == 0 || lifeSpan < expDur)`. -/
def CacheTable.Add (t : CacheTable α β) (key : α) (lifeSpan : Int) (data : β)
    (now : Int) : CacheItem α β × CacheTable α β × List (CacheEvent α) :=
  let item := CreateCacheItem key lifeSpan data now
  let t1 := { t with items := setKey t.items key item }
  let expDur := t1.cleanupInterval
  let evs := if t1.addedItem then [CacheEvent.onAdded key] else []
  if 0 < lifeSpan ∧ (expDur = 0 ∨ lifeSpan < expDur) then
    let r := t1.expirationCheck now
    (item, r.1, evs ++ r.2)
  else
    (item, t1, evs)

/-- Go `CacheTable.NotFoundAdd`: in one critical section, return `false` if the
key exists; otherwise insert exactly as `Add` does and return `true`. -/
def CacheTable.NotFoundAdd (t : CacheTable α β) (key : α) (lifeSpan : Int)
    (data : β) (now : Int) : Bool × CacheTable α β × List (CacheEvent α) :=
  match lookupKey t.items key with
  | some _ => (false, t, [])
  | none =>
      let item := CreateCacheItem key lifeSpan data now
      let t1 := { t with items := setKey t.items key item }
      let expDur := t1.cleanupInterval
      let evs := if t1.addedItem then [CacheEvent.onAdded key] else []
      if 0 < lifeSpan ∧ (expDur = 0 ∨ lifeSpan < expDur) then
        let r := t1.expirationCheck now
        (true, r.1, evs ++ r.2)
      else
        (true, t1, evs)

/-- Go `CacheTable.Value`: on a present key, `KeepAlive` the item and return
it; on an absent key, consult the data loader if installed (re-adding a fresh
item built from the loaded item's lifespan and data, and returning the loaded
item itself), else fail. -/
def CacheTable.Value (t : CacheTable α β) (key : α) (now : Int) :
    Except CacheError (CacheItem α β) × CacheTable α β × List (CacheEvent α) :=
  match lookupKey t.items key with
  | some r =>
      let r1 := r.KeepAlive now
      (Except.ok r1, { t with items := setKey t.items key r1 }, [])
  | none =>
      match t.loadData with
      | some f =>
          match f key with
          | some item =>
              let a := t.Add key item.lifeSpan item.data now
              (Except.ok item, a.2.1, a.2.2)
          | none => (Except.error CacheError.ErrKeyNotFoundOrLoadable, t, [])
      | none => (Except.error CacheError.ErrKeyNotFound, t, [])

/-- Go `CacheTable.Flush`: drop all items, reset `cleanupInterval` to 0, stop
any existing timer. No callback fires. -/
def CacheTable.Flush (t : CacheTable α β) : CacheTable α β × List (CacheEvent α) :=
  ({ t with
      items := []
      cleanupInterval := 0
      cleanupTimer := t.cleanupTimer.map (fun _ => false) }, [])

/-- The collect-and-count loop of Go `CacheTable.MostAccessed`: walk the sorted
(key, accessCount) pairs, stop once `count` pairs have been considered, and
re-look each key up in the live table. -/
def mostAccessedLoop (t : CacheTable α β) :
    List (α × Nat) → Int → Int → List (CacheItem α β)
  | [], _, _ => []
  | v :: rest, c, count =>
      if count ≤ c then []
      else
        match lookupKey t.items v.1 with
        | some item => item :: mostAccessedLoop t rest (c + 1) count
        | none => mostAccessedLoop t rest (c + 1) count

/-- Go `CacheTable.MostAccessed`: snapshot (key, accessCount) pairs, sort by
descending access count (`CacheItemPairList.Less` is `>` on `AccessCount`; the
tie order of Go's unstable sort is unspecified, modelled here by `mergeSort`
with the same sortedness predicate), then collect up to `count` items. -/
def CacheTable.MostAccessed (t : CacheTable α β) (count : Int) :
    List (CacheItem α β) :=
  let p := t.items.map (fun kv => (kv.1, kv.2.accessCount))
  let sorted := p.mergeSort (fun a b => b.2 ≤ a.2)
  mostAccessedLoop t sorted 0 count

/-! Derived notions used to state properties of the scan. -/

/-- An item the scan removes: finite lifespan already exceeded by its idle
time (`lifeSpan != 0 && now.Sub(accessedOn) >= lifeSpan`). -/
def isExpired (now : Int) (item : CacheItem α β) : Bool :=
  !decide (item.lifeSpan = 0) && decide (item.lifeSpan ≤ now - item.accessedOn)

/-- The remaining lifespan of an item: `lifeSpan - (now - accessedOn)`. -/
def remainingOf (now : Int) (item : CacheItem α β) : Int :=
  item.lifeSpan - (now - item.accessedOn)

/-- One `smallestDuration` update of the scan loop. -/
def sdStep (now : Int) (sd : Int) (item : CacheItem α β) : Int :=
  if sd = 0 ∨ remainingOf now item < sd then remainingOf now item else sd

/-- The bindings of `l` that one scan at time `now` deletes. -/
def expiredEntries (now : Int) (l : List (α × CacheItem α β)) :
    List (α × CacheItem α β) :=
  l.filter (fun p => isExpired now p.2)

/-- The bindings of `l` that survive a scan at time `now` and carry a
positive lifespan. -/
def scanSurvivors (now : Int) (l : List (α × CacheItem α β)) :
    List (α × CacheItem α β) :=
  l.filter (fun p =>
    decide (0 < p.2.lifeSpan) && !decide (p.2.lifeSpan ≤ now - p.2.accessedOn))

/-- The remaining lifespans (lifespan − idle) of the surviving positive-
lifespan bindings of `l` at time `now`. -/
def scanSurvRems (now : Int) (l : List (α × CacheItem α β)) : List Int :=
  (scanSurvivors now l).map (fun p => remainingOf now p.2)

/-- The `smallestDuration` a scan over the bindings `l` computes at time
`now`: the fold of the loop's update over the bindings that are neither
immortal nor expired, starting from 0. -/
def scanSmallest (now : Int) (l : List (α × CacheItem α β)) : Int :=
  List.foldl (fun s p => sdStep now s p.2) 0
    (l.filter (fun p =>
      !decide (p.2.lifeSpan = 0) && !decide (p.2.lifeSpan ≤ now - p.2.accessedOn)))

/-! Operation sequences over a table, for lifetime invariants. Each
constructor is one public operation of the library; `tick` is the scheduler
timer firing (which runs `expirationCheck`), and `keepAlive` / `setExpiry`
are the entry-level operations reached through an item handle (they touch the
entry stored in the table, a no-op if the entry was removed meanwhile). -/
inductive TableOp (α β : Type) where
  | add : α → Int → β → TableOp α β
  | notFoundAdd : α → Int → β → TableOp α β
  | del : α → TableOp α β
  | value : α → TableOp α β
  | flush : TableOp α β
  | tick : TableOp α β
  | keepAlive : α → TableOp α β
  | setExpiry : α → Bool → TableOp α β

/-- The table reached by one operation performed at time `now`. -/
def step (t : CacheTable α β) : TableOp α β → Int → CacheTable α β
  | TableOp.add key ls d, now => (t.Add key ls d now).2.1
  | TableOp.notFoundAdd key ls d, now => (t.NotFoundAdd key ls d now).2.1
  | TableOp.del key, _ => (t.Delete key).2.1
  | TableOp.value key, now => (t.Value key now).2.1
  | TableOp.flush, _ => t.Flush.1
  | TableOp.tick, now => (t.expirationCheck now).1
  | TableOp.keepAlive key, now =>
      match lookupKey t.items key with
      | some r => { t with items := setKey t.items key (r.KeepAlive now) }
      | none => t
  | TableOp.setExpiry key b, _ =>
      match lookupKey t.items key with
      | some r =>
          { t with items := setKey t.items key (r.SetAboutToExpireCallback b) }
      | none => t

/-- The table reached by a sequence of timestamped operations. -/
def run (t : CacheTable α β) : List (TableOp α β × Int) → CacheTable α β
  | [] => t
  | (op, now) :: rest => run (step t op now) rest

/-- Timestamps of an operation sequence are non-decreasing and start no
earlier than `T`. -/
def timesMono (T : Int) : List (TableOp α β × Int) → Prop
  | [] => True
  | (_, now) :: rest => T ≤ now ∧ timesMono now rest

/-- Per-entry part of the lifetime invariant: the entry was accessed no
earlier than it was created, and no later than the current time. -/
abbrev EntryInv (now : Int) (item : CacheItem α β) : Prop :=
  item.createdOn ≤ item.accessedOn ∧ item.accessedOn ≤ now

/-- Every entry of the table satisfies `EntryInv` at time `now`. -/
abbrev TableInv (now : Int) (t : CacheTable α β) : Prop :=
  ∀ p ∈ t.items, EntryInv now p.2

/-- The timestamp of the last operation of a sequence (`T` if empty). -/
def lastTime (T : Int) : List (TableOp α β × Int) → Int
  | [] => T
  | (_, now) :: rest => lastTime now rest

/-! Concrete items and tables used to evaluate the theorems on explicit
inputs. -/

/-- A concrete item over `Nat` keys and values. -/
def exItem (k : Nat) (ls acc : Int) (cnt : Nat) (cb : Bool) (d : Nat) :
    CacheItem Nat Nat :=
  { key := k, data := d, lifeSpan := ls, createdOn := 0, accessedOn := acc,
    accessCount := cnt, aboutToExpire := cb }

/-- A concrete three-entry table: one entry that will survive a scan at time
4, one immortal entry, one entry expired at time 4. -/
def exTable : CacheTable Nat Nat :=
  { items := [(1, exItem 1 5 0 0 true 10), (2, exItem 2 0 0 3 false 20),
              (3, exItem 3 3 0 2 true 30)]
    cleanupTimer := some true
    cleanupInterval := 7
    loadData := none
    addedItem := true
    aboutToDeleteItem := true }

/-- A loader for the concrete tables: yields an item only for key 42. -/
def exLoader : Nat → Option (CacheItem Nat Nat) :=
  fun k => if k = 42 then some (exItem 42 6 1 5 true 50) else none

/-- `exTable` with the loader installed. -/
def exTableLoader : CacheTable Nat Nat :=
  { exTable with loadData := some exLoader }

/-! Association-list lemmas about `lookupKey`, `setKey`, `eraseKey`. -/

theorem lookupKey_eq_none {l : List (α × CacheItem α β)} {key : α} :
    lookupKey l key = none ↔ key ∉ l.map Prod.fst := by
  induction l with
  | nil => simp [lookupKey]
  | cons p rest ih =>
      obtain ⟨k, v⟩ := p
      simp only [lookupKey, List.map_cons, List.mem_cons, not_or]
      by_cases h : k = key
      · subst h
        simp
      · simp only [if_neg h, ih]
        constructor
        · intro h1
          exact ⟨fun hh => h hh.symm, h1⟩
        · intro h1
          exact h1.2

theorem lookupKey_mem {l : List (α × CacheItem α β)} {key : α}
    {v : CacheItem α β} (h : lookupKey l key = some v) : (key, v) ∈ l := by
  induction l with
  | nil => simp [lookupKey] at h
  | cons p rest ih =>
      obtain ⟨k, w⟩ := p
      by_cases hk : k = key
      · subst hk
        simp [lookupKey] at h
        subst h
        exact List.mem_cons_self _ _
      · simp only [lookupKey, if_neg hk] at h
        exact List.mem_cons_of_mem _ (ih h)

theorem lookupKey_eq_some_of_mem {l : List (α × CacheItem α β)} {key : α}
    {v : CacheItem α β} (hnd : (l.map Prod.fst).Nodup) (h : (key, v) ∈ l) :
    lookupKey l key = some v := by
  induction l with
  | nil => simp at h
  | cons p rest ih =>
      obtain ⟨k, w⟩ := p
      simp only [List.map_cons, List.nodup_cons] at hnd
      rcases List.mem_cons.mp h with h1 | h1
      · cases h1
        simp [lookupKey]
      · have hk : ¬ k = key := by
          intro hk
          subst hk
          exact hnd.1 (List.mem_map_of_mem Prod.fst h1)
        simp only [lookupKey, if_neg hk]
        exact ih hnd.2 h1

theorem keys_filter_sublist (l : List (α × CacheItem α β))
    (f : α × CacheItem α β → Bool) :
    ((l.filter f).map Prod.fst).Sublist (l.map Prod.fst) :=
  (List.filter_sublist l).map Prod.fst

theorem nodup_keys_filter {l : List (α × CacheItem α β)}
    (f : α × CacheItem α β → Bool) (hnd : (l.map Prod.fst).Nodup) :
    ((l.filter f).map Prod.fst).Nodup :=
  (keys_filter_sublist l f).nodup hnd

theorem lookupKey_filter {l : List (α × CacheItem α β)} {key : α}
    (f : α × CacheItem α β → Bool) (hnd : (l.map Prod.fst).Nodup) :
    lookupKey (l.filter f) key =
      (lookupKey l key).bind (fun v => if f (key, v) then some v else none) := by
  induction l with
  | nil => simp [lookupKey]
  | cons p rest ih =>
      obtain ⟨k, v⟩ := p
      simp only [List.map_cons, List.nodup_cons] at hnd
      by_cases hk : k = key
      · subst hk
        by_cases hf : f (k, v)
        · simp [List.filter_cons, hf, lookupKey]
        · have hnone : lookupKey (rest.filter f) k = none := by
            rw [lookupKey_eq_none]
            intro hmem
            exact hnd.1 ((keys_filter_sublist rest f).subset hmem)
          simp [List.filter_cons, hf, lookupKey, hnone]
      · by_cases hf : f (k, v)
        · simp [List.filter_cons, hf, lookupKey, hk, ih hnd.2]
        · simp [List.filter_cons, hf, lookupKey, hk, ih hnd.2]

theorem eraseKey_eq_filter {l : List (α × CacheItem α β)} {key : α}
    (hnd : (l.map Prod.fst).Nodup) :
    eraseKey l key = l.filter (fun p => !decide (p.1 = key)) := by
  induction l with
  | nil => simp [eraseKey]
  | cons p rest ih =>
      obtain ⟨k, v⟩ := p
      simp only [List.map_cons, List.nodup_cons] at hnd
      by_cases hk : k = key
      · subst hk
        have he : eraseKey ((k, v) :: rest) k = rest := by simp [eraseKey]
        have hf : ((k, v) :: rest).filter (fun p => !decide (p.1 = k)) =
            rest.filter (fun p => !decide (p.1 = k)) := by
          simp [List.filter_cons]
        rw [he, hf]
        refine (List.filter_eq_self.mpr ?_).symm
        intro p hp
        have hpk : p.1 ≠ k := by
          intro h1
          apply hnd.1
          rw [← h1]
          exact List.mem_map_of_mem Prod.fst hp
        simp [hpk]
      · simp [eraseKey, hk, List.filter_cons, ih hnd.2]

theorem lookupKey_setKey_self {l : List (α × CacheItem α β)} {key : α}
    {v : CacheItem α β} : lookupKey (setKey l key v) key = some v := by
  induction l with
  | nil => simp [setKey, lookupKey]
  | cons p rest ih =>
      obtain ⟨k, w⟩ := p
      by_cases hk : k = key
      · subst hk
        simp [setKey, lookupKey]
      · simp [setKey, hk, lookupKey, ih]

theorem lookupKey_setKey_ne {l : List (α × CacheItem α β)} {key k : α}
    {v : CacheItem α β} (h : k ≠ key) :
    lookupKey (setKey l key v) k = lookupKey l k := by
  have hks : ¬ key = k := fun hh => h hh.symm
  induction l with
  | nil => simp [setKey, lookupKey, hks]
  | cons p rest ih =>
      obtain ⟨k1, w⟩ := p
      by_cases hk : k1 = key
      · subst hk
        simp [setKey, lookupKey, hks]
      · by_cases hk2 : k1 = k
        · subst hk2
          simp [setKey, hk, lookupKey]
        · simp [setKey, hk, lookupKey, hk2, ih]

theorem mem_setKey {l : List (α × CacheItem α β)} {key : α}
    {v : CacheItem α β} {p : α × CacheItem α β} (h : p ∈ setKey l key v) :
    p = (key, v) ∨ p ∈ l := by
  induction l with
  | nil =>
      simp [setKey] at h
      exact Or.inl h
  | cons q rest ih =>
      obtain ⟨k, w⟩ := q
      by_cases hk : k = key
      · subst hk
        rw [show setKey ((k, w) :: rest) k v = (k, v) :: rest from by
          simp [setKey]] at h
        rcases List.mem_cons.mp h with h | h
        · exact Or.inl h
        · exact Or.inr (List.mem_cons_of_mem _ h)
      · simp only [setKey, if_neg hk, List.mem_cons] at h
        rcases h with h | h
        · exact Or.inr (h ▸ List.mem_cons_self _ _)
        · rcases ih h with h1 | h1
          · exact Or.inl h1
          · exact Or.inr (List.mem_cons_of_mem _ h1)

theorem keys_setKey_nodup {l : List (α × CacheItem α β)} {key : α}
    {v : CacheItem α β} (hnd : (l.map Prod.fst).Nodup) :
    ((setKey l key v).map Prod.fst).Nodup := by
  induction l with
  | nil => simp [setKey]
  | cons p rest ih =>
      obtain ⟨k, w⟩ := p
      simp only [List.map_cons, List.nodup_cons] at hnd
      by_cases hk : k = key
      · subst hk
        rw [show setKey ((k, w) :: rest) k v = (k, v) :: rest from by
          simp [setKey]]
        simp only [List.map_cons, List.nodup_cons]
        exact hnd
      · simp only [setKey, if_neg hk, List.map_cons, List.nodup_cons]
        constructor
        · intro hmem
          rcases List.mem_map.mp hmem with ⟨q, hq, hfst⟩
          rcases mem_setKey hq with h1 | h1
          · rw [h1] at hfst
            exact hk hfst.symm
          · apply hnd.1
            rw [← hfst]
            exact List.mem_map_of_mem Prod.fst h1
        · exact ih hnd.2

theorem eq_of_mem_nodup_keys {l : List (α × CacheItem α β)}
    (hnd : (l.map Prod.fst).Nodup) {p q : α × CacheItem α β}
    (hp : p ∈ l) (hq : q ∈ l) (hk : p.1 = q.1) : p = q := by
  have h1 : lookupKey l p.1 = some p.2 := lookupKey_eq_some_of_mem hnd hp
  have h2 : lookupKey l q.1 = some q.2 := lookupKey_eq_some_of_mem hnd hq
  rw [hk, h2] at h1
  exact Prod.ext hk (Option.some.injEq _ _ ▸ h1).symm

/-! Characterization of `Delete` and of the expiration scan loop. -/

theorem Delete_present {t : CacheTable α β} {key : α} {r : CacheItem α β}
    (h : lookupKey t.items key = some r) :
    t.Delete key =
      (Except.ok r, { t with items := eraseKey t.items key },
       deleteEvents t.aboutToDeleteItem key r) := by
  simp [CacheTable.Delete, h]

theorem Delete_absent {t : CacheTable α β} {key : α}
    (h : lookupKey t.items key = none) :
    t.Delete key = (Except.error CacheError.ErrKeyNotFound, t, []) := by
  simp [CacheTable.Delete, h]

theorem expirationCheckLoop_spec (now : Int) (l : List (α × CacheItem α β))
    (t : CacheTable α β) (sd : Int)
    (h1 : ∀ p ∈ l, lookupKey t.items p.1 = some p.2)
    (h2 : (l.map Prod.fst).Nodup)
    (h3 : (t.items.map Prod.fst).Nodup) :
    expirationCheckLoop now l t sd =
      ({ t with items := List.filter
                  (fun p => !decide (p.1 ∈ (expiredEntries now l).map Prod.fst))
                  t.items },
       List.foldl (fun s p => sdStep now s p.2) sd
         (l.filter (fun p =>
            !decide (p.2.lifeSpan = 0) &&
            !decide (p.2.lifeSpan ≤ now - p.2.accessedOn))),
       (expiredEntries now l).flatMap
         (fun p => deleteEvents t.aboutToDeleteItem p.1 p.2)) := by
  induction l generalizing t sd with
  | nil =>
      simp [expirationCheckLoop, expiredEntries]
  | cons hd rest ih =>
      obtain ⟨key, item⟩ := hd
      have hlook : lookupKey t.items key = some item :=
        h1 (key, item) (List.mem_cons_self _ _)
      have hrest : ∀ p ∈ rest, lookupKey t.items p.1 = some p.2 :=
        fun p hp => h1 p (List.mem_cons_of_mem _ hp)
      simp only [List.map_cons, List.nodup_cons] at h2
      by_cases hz : item.lifeSpan = 0
      · have hnx : isExpired now item = false := by
          simp [isExpired, hz]
        have hexp : expiredEntries now ((key, item) :: rest) =
            expiredEntries now rest := by
          simp [expiredEntries, List.filter_cons, hnx]
        rw [show expirationCheckLoop now ((key, item) :: rest) t sd =
              expirationCheckLoop now rest t sd from by
            simp [expirationCheckLoop, hz]]
        rw [ih t sd hrest h2.2 h3, hexp]
        simp [List.filter_cons, hz]
      · by_cases he : item.lifeSpan ≤ now - item.accessedOn
        · -- expired: the loop deletes `key` and recurses on the shrunk table
          have hx : isExpired now item = true := by
            simp [isExpired, hz, he]
          have herase : eraseKey t.items key =
              t.items.filter (fun p => !decide (p.1 = key)) :=
            eraseKey_eq_filter h3
          have hnd' : ((eraseKey t.items key).map Prod.fst).Nodup := by
            rw [herase]
            exact nodup_keys_filter _ h3
          have hrest' : ∀ p ∈ rest,
              lookupKey (eraseKey t.items key) p.1 = some p.2 := by
            intro p hp
            rw [herase, lookupKey_filter _ h3, hrest p hp]
            have : ¬ p.1 = key := by
              intro hpk
              exact h2.1 (hpk ▸ List.mem_map_of_mem Prod.fst hp)
            simp [this]
          have hloop : expirationCheckLoop now ((key, item) :: rest) t sd =
              (let d := t.Delete key
               let r := expirationCheckLoop now rest d.2.1 sd
               (r.1, r.2.1, d.2.2 ++ r.2.2)) := by
            simp [expirationCheckLoop, hz, he]
          rw [hloop, Delete_present hlook]
          have ihr := ih { t with items := eraseKey t.items key } sd hrest' h2.2 hnd'
          simp only [ihr]
          have hexp : expiredEntries now ((key, item) :: rest) =
              (key, item) :: expiredEntries now rest := by
            simp [expiredEntries, List.filter_cons, hx]
          rw [hexp]
          simp only [List.flatMap_cons, List.filter_cons, List.map_cons,
            Prod.mk.injEq]
          refine ⟨?_, ?_, trivial⟩
          · rw [herase, List.filter_filter]
            refine congrArg (fun its => ({ t with items := its } : CacheTable α β))
              (List.filter_congr ?_)
            intro p hp
            simp [Bool.and_comm]
            rfl
          · simp [hz, he]
        · -- alive with finite lifespan: update smallestDuration
          have hnx : isExpired now item = false := by
            simp [isExpired, hz, he]
          have hexp : expiredEntries now ((key, item) :: rest) =
              expiredEntries now rest := by
            simp [expiredEntries, List.filter_cons, hnx]
          have hloop : expirationCheckLoop now ((key, item) :: rest) t sd =
              expirationCheckLoop now rest t (sdStep now sd item) := by
            simp [expirationCheckLoop, hz, he, sdStep, remainingOf]
          rw [hloop, ih t (sdStep now sd item) hrest h2.2 h3, hexp]
          simp [List.filter_cons, hz, he]

theorem expirationCheck_eq (t : CacheTable α β) (now : Int) (hwf : WF t) :
    t.expirationCheck now =
      ({ t with
          items := List.filter
            (fun p => !decide (p.1 ∈ (expiredEntries now t.items).map Prod.fst))
            t.items
          cleanupInterval := scanSmallest now t.items
          cleanupTimer :=
            if 0 < scanSmallest now t.items then some true
            else t.cleanupTimer.map (fun _ => false) },
       (expiredEntries now t.items).flatMap
         (fun p => deleteEvents t.aboutToDeleteItem p.1 p.2)) := by
  have h1 : ∀ p ∈ t.items, lookupKey t.items p.1 = some p.2 :=
    fun p hp => lookupKey_eq_some_of_mem hwf hp
  simp only [CacheTable.expirationCheck]
  rw [expirationCheckLoop_spec now t.items
    { t with cleanupTimer := t.cleanupTimer.map (fun _ => false) } 0 h1 hwf hwf]
  simp [scanSmallest]

theorem fold_sdStep_spec (now : Int) (L : List (α × CacheItem α β))
    (hpos : ∀ p ∈ L, 0 < remainingOf now p.2) (s : Int) (hs : 0 < s) :
    List.foldl (fun a p => sdStep now a p.2) s L ∈
        s :: L.map (fun p => remainingOf now p.2) ∧
      List.foldl (fun a p => sdStep now a p.2) s L ≤ s ∧
      ∀ x ∈ L.map (fun p => remainingOf now p.2),
        List.foldl (fun a p => sdStep now a p.2) s L ≤ x := by
  induction L generalizing s with
  | nil =>
      refine ⟨List.mem_cons_self _ _, le_refl _, ?_⟩
      intro x hx
      simp at hx
  | cons q Q ih =>
      have hq : 0 < remainingOf now q.2 := hpos q (List.mem_cons_self _ _)
      have hQ : ∀ p ∈ Q, 0 < remainingOf now p.2 :=
        fun p hp => hpos p (List.mem_cons_of_mem _ hp)
      have hs0 : ¬ s = 0 := by omega
      have hval : (sdStep now s q.2 = remainingOf now q.2 ∧
            remainingOf now q.2 < s) ∨
          (sdStep now s q.2 = s ∧ s ≤ remainingOf now q.2) := by
        by_cases hlt : remainingOf now q.2 < s
        · exact Or.inl ⟨by simp [sdStep, hs0, hlt], hlt⟩
        · exact Or.inr ⟨by simp [sdStep, hs0, hlt], by omega⟩
      have hb1 : 0 < sdStep now s q.2 := by
        rcases hval with ⟨h, h2⟩ | ⟨h, h2⟩ <;> omega
      have hb2 : sdStep now s q.2 ≤ s := by
        rcases hval with ⟨h, h2⟩ | ⟨h, h2⟩ <;> omega
      have hb3 : sdStep now s q.2 ≤ remainingOf now q.2 := by
        rcases hval with ⟨h, h2⟩ | ⟨h, h2⟩ <;> omega
      obtain ⟨m1, m2, m3⟩ := ih hQ (sdStep now s q.2) hb1
      have hfold : List.foldl (fun a p => sdStep now a p.2) s (q :: Q) =
          List.foldl (fun a p => sdStep now a p.2) (sdStep now s q.2) Q := rfl
      rw [hfold]
      simp only [List.map_cons, List.mem_cons] at m1 ⊢
      refine ⟨?_, ?_, ?_⟩
      · rcases m1 with hm | hm
        · rcases hval with ⟨h, h2⟩ | ⟨h, h2⟩
          · exact Or.inr (Or.inl (by omega))
          · exact Or.inl (by omega)
        · exact Or.inr (Or.inr hm)
      · omega
      · intro x hx
        rcases hx with hx | hx
        · omega
        · exact le_trans (m3 x hx) (le_refl x)

theorem scan_filter_eq_survivors (now : Int) (l : List (α × CacheItem α β))
    (hacc : ∀ p ∈ l, p.2.accessedOn ≤ now) :
    l.filter (fun p =>
        !decide (p.2.lifeSpan = 0) &&
        !decide (p.2.lifeSpan ≤ now - p.2.accessedOn)) =
      scanSurvivors now l := by
  refine List.filter_congr ?_
  intro p hp
  have h := hacc p hp
  by_cases hle : p.2.lifeSpan ≤ now - p.2.accessedOn
  · simp [hle]
  · have h1 : ¬ p.2.lifeSpan = 0 := by omega
    have h2 : 0 < p.2.lifeSpan := by omega
    simp [hle, h1, h2]

theorem survivor_rem_pos {now : Int} {l : List (α × CacheItem α β)}
    {p : α × CacheItem α β} (hp : p ∈ scanSurvivors now l) :
    0 < remainingOf now p.2 := by
  have := (List.mem_filter.mp hp).2
  simp only [Bool.and_eq_true, decide_eq_true_eq, Bool.not_eq_true',
    decide_eq_false_iff_not] at this
  unfold remainingOf
  omega

theorem expirationCheck_lookup (t : CacheTable α β) (now : Int) (hwf : WF t)
    {key : α} {item : CacheItem α β}
    (hmem : lookupKey t.items key = some item) :
    lookupKey (t.expirationCheck now).1.items key =
      if isExpired now item then none else some item := by
  rw [expirationCheck_eq t now hwf]
  simp only
  rw [lookupKey_filter _ hwf, hmem]
  by_cases hx : isExpired now item = true
  · have hkmem : key ∈ (expiredEntries now t.items).map Prod.fst := by
      exact List.mem_map.mpr
        ⟨(key, item), List.mem_filter.mpr ⟨lookupKey_mem hmem, hx⟩, rfl⟩
    simp [hx, hkmem]
  · have hkn : key ∉ (expiredEntries now t.items).map Prod.fst := by
      intro hk
      rcases List.mem_map.mp hk with ⟨q, hq, hq1⟩
      have hq2 := List.mem_filter.mp hq
      have : q = (key, item) :=
        eq_of_mem_nodup_keys hwf hq2.1 (lookupKey_mem hmem) hq1
      rw [this] at hq2
      exact hx hq2.2
    simp [hx, hkn]

/-- C1: one expiration scan removes, via the delete path with its full
callback trace, exactly the entries whose positive lifespan is exceeded by
their idle time; immortal (lifespan 0) entries are untouched; and the
resulting `cleanupInterval` is the minimum lifespan−idle over the surviving
positive-lifespan entries, or 0 when there are none. -/
theorem expirationCheck_correct (t : CacheTable α β) (now : Int)
    (hwf : WF t) (hacc : ∀ p ∈ t.items, p.2.accessedOn ≤ now) :
    (∀ p ∈ t.items, 0 < p.2.lifeSpan → p.2.lifeSpan ≤ now - p.2.accessedOn →
        lookupKey (t.expirationCheck now).1.items p.1 = none) ∧
    (t.expirationCheck now).2 =
      (expiredEntries now t.items).flatMap
        (fun p => deleteEvents t.aboutToDeleteItem p.1 p.2) ∧
    (∀ p ∈ t.items, p.2.lifeSpan = 0 →
        lookupKey (t.expirationCheck now).1.items p.1 = some p.2) ∧
    (scanSurvRems now t.items = [] →
        (t.expirationCheck now).1.cleanupInterval = 0) ∧
    (scanSurvRems now t.items ≠ [] →
        (t.expirationCheck now).1.cleanupInterval ∈ scanSurvRems now t.items ∧
        ∀ x ∈ scanSurvRems now t.items,
          (t.expirationCheck now).1.cleanupInterval ≤ x) := by
  have hint : (t.expirationCheck now).1.cleanupInterval =
      scanSmallest now t.items := by
    rw [expirationCheck_eq t now hwf]
  have hsurv : scanSmallest now t.items =
      List.foldl (fun s p => sdStep now s p.2) 0 (scanSurvivors now t.items) := by
    unfold scanSmallest
    rw [scan_filter_eq_survivors now t.items hacc]
  refine ⟨?_, ?_, ?_, ?_, ?_⟩
  · intro p hp hls hexp
    have hmem : lookupKey t.items p.1 = some p.2 :=
      lookupKey_eq_some_of_mem hwf hp
    rw [expirationCheck_lookup t now hwf hmem]
    have : isExpired now p.2 = true := by
      simp only [isExpired, Bool.and_eq_true, Bool.not_eq_true',
        decide_eq_false_iff_not, decide_eq_true_eq]
      exact ⟨by omega, hexp⟩
    simp [this]
  · rw [expirationCheck_eq t now hwf]
  · intro p hp hls
    have hmem : lookupKey t.items p.1 = some p.2 :=
      lookupKey_eq_some_of_mem hwf hp
    rw [expirationCheck_lookup t now hwf hmem]
    have : isExpired now p.2 = false := by
      simp [isExpired, hls]
    simp [this]
  · intro hnil
    rw [hint, hsurv]
    have : scanSurvivors now t.items = [] := by
      unfold scanSurvRems at hnil
      exact List.map_eq_nil_iff.mp hnil
    rw [this]
    rfl
  · intro hne
    rw [hint, hsurv]
    rcases hS : scanSurvivors now t.items with _ | ⟨q, Q⟩
    · unfold scanSurvRems at hne
      rw [hS] at hne
      simp at hne
    · have hq : 0 < remainingOf now q.2 :=
        survivor_rem_pos (hS ▸ List.mem_cons_self _ _)
      have hQ : ∀ p ∈ Q, 0 < remainingOf now p.2 := by
        intro p hp
        exact survivor_rem_pos (hS ▸ List.mem_cons_of_mem _ hp)
      have hstep0 : List.foldl (fun s p => sdStep now s p.2) 0 (q :: Q) =
          List.foldl (fun s p => sdStep now s p.2) (remainingOf now q.2) Q := by
        have : sdStep now 0 q.2 = remainingOf now q.2 := by
          simp [sdStep]
        show List.foldl (fun s p => sdStep now s p.2) (sdStep now 0 q.2) Q = _
        rw [this]
      obtain ⟨m1, m2, m3⟩ := fold_sdStep_spec now Q hQ (remainingOf now q.2) hq
      rw [hstep0]
      unfold scanSurvRems
      rw [hS]
      constructor
      · simp only [List.map_cons, List.mem_cons]
        simpa using m1
      · intro x hx
        simp only [List.map_cons, List.mem_cons] at hx
        rcases hx with hx | hx
        · omega
        · exact m3 x hx

/-- Witness for C1: the scan of `exTable` at time 4. -/
theorem expirationCheck_correct_witness :
    WF exTable ∧ (∀ p ∈ exTable.items, p.2.accessedOn ≤ 4) ∧
    ((∀ p ∈ exTable.items, 0 < p.2.lifeSpan →
        p.2.lifeSpan ≤ 4 - p.2.accessedOn →
        lookupKey (exTable.expirationCheck 4).1.items p.1 = none) ∧
     (exTable.expirationCheck 4).2 =
       (expiredEntries 4 exTable.items).flatMap
         (fun p => deleteEvents exTable.aboutToDeleteItem p.1 p.2) ∧
     (∀ p ∈ exTable.items, p.2.lifeSpan = 0 →
         lookupKey (exTable.expirationCheck 4).1.items p.1 = some p.2) ∧
     (scanSurvRems 4 exTable.items = [] →
         (exTable.expirationCheck 4).1.cleanupInterval = 0) ∧
     (scanSurvRems 4 exTable.items ≠ [] →
         (exTable.expirationCheck 4).1.cleanupInterval ∈
           scanSurvRems 4 exTable.items ∧
         ∀ x ∈ scanSurvRems 4 exTable.items,
           (exTable.expirationCheck 4).1.cleanupInterval ≤ x)) :=
  ⟨by decide, by decide, expirationCheck_correct exTable 4 (by decide) (by decide)⟩

/-! Further helper lemmas shared by the remaining claims. -/

theorem flatMap_congr {γ δ : Type} {l : List γ} {f g : γ → List δ}
    (h : ∀ p ∈ l, f p = g p) : l.flatMap f = l.flatMap g := by
  induction l with
  | nil => rfl
  | cons q Q ih =>
      simp only [List.flatMap_cons]
      rw [h q (List.mem_cons_self _ _),
        ih (fun p hp => h p (List.mem_cons_of_mem _ hp))]

theorem lookupKey_eraseKey_ne {l : List (α × CacheItem α β)} {key k : α}
    (hnd : (l.map Prod.fst).Nodup) (h : ¬ k = key) :
    lookupKey (eraseKey l key) k = lookupKey l k := by
  rw [eraseKey_eq_filter hnd, lookupKey_filter _ hnd]
  cases hl : lookupKey l k <;> simp [hl, h]

theorem eraseKey_subset {l : List (α × CacheItem α β)} {key : α}
    {p : α × CacheItem α β} (h : p ∈ eraseKey l key) : p ∈ l := by
  induction l with
  | nil => simp [eraseKey] at h
  | cons q rest ih =>
      obtain ⟨k, v⟩ := q
      by_cases hk : k = key
      · rw [show eraseKey ((k, v) :: rest) key = rest from by
          simp [eraseKey, hk]] at h
        exact List.mem_cons_of_mem _ h
      · rw [show eraseKey ((k, v) :: rest) key = (k, v) :: eraseKey rest key from by
          simp [eraseKey, hk]] at h
        rcases List.mem_cons.mp h with h1 | h1
        · exact h1 ▸ List.mem_cons_self _ _
        · exact List.mem_cons_of_mem _ (ih h1)

theorem Delete_items_subset {t : CacheTable α β} {key : α}
    {p : α × CacheItem α β} (h : p ∈ (t.Delete key).2.1.items) : p ∈ t.items := by
  rcases hl : lookupKey t.items key with _ | r
  · rw [Delete_absent hl] at h
    exact h
  · rw [Delete_present hl] at h
    exact eraseKey_subset h

theorem expirationCheckLoop_items_subset (now : Int)
    (l : List (α × CacheItem α β)) :
    ∀ (t : CacheTable α β) (sd : Int) (p : α × CacheItem α β),
      p ∈ (expirationCheckLoop now l t sd).1.items → p ∈ t.items := by
  induction l with
  | nil =>
      intro t sd p h
      exact h
  | cons q rest ih =>
      obtain ⟨key, item⟩ := q
      intro t sd p h
      by_cases hz : item.lifeSpan = 0
      · rw [show expirationCheckLoop now ((key, item) :: rest) t sd =
            expirationCheckLoop now rest t sd from by
          simp [expirationCheckLoop, hz]] at h
        exact ih t sd p h
      · by_cases he : item.lifeSpan ≤ now - item.accessedOn
        · rw [show expirationCheckLoop now ((key, item) :: rest) t sd =
              (let d := t.Delete key
               let r := expirationCheckLoop now rest d.2.1 sd
               (r.1, r.2.1, d.2.2 ++ r.2.2)) from by
            simp [expirationCheckLoop, hz, he]] at h

          exact Delete_items_subset (ih (t.Delete key).2.1 sd p h)
        · rw [show expirationCheckLoop now ((key, item) :: rest) t sd =
              expirationCheckLoop now rest t
                (if sd = 0 ∨ item.lifeSpan - (now - item.accessedOn) < sd
                 then item.lifeSpan - (now - item.accessedOn) else sd) from by
            simp [expirationCheckLoop, hz, he]] at h
          exact ih t _ p h

theorem expirationCheck_items_subset {t : CacheTable α β} {now : Int}
    {p : α × CacheItem α β} (h : p ∈ (t.expirationCheck now).1.items) :
    p ∈ t.items := by
  simp only [CacheTable.expirationCheck] at h
  exact expirationCheckLoop_items_subset now t.items
    { t with cleanupTimer := t.cleanupTimer.map (fun _ => false) } 0 p h

theorem mem_deleteEvents_key {flag : Bool} {key : α} {item : CacheItem α β}
    {e : CacheEvent α} (h : e ∈ deleteEvents flag key item) :
    e = CacheEvent.onAboutToDelete key ∨ e = CacheEvent.expiryCallback key := by
  unfold deleteEvents at h
  cases flag <;> rcases hab : item.aboutToExpire <;>
    simp [hab] at h <;> simp [h]

theorem Add_eq (t : CacheTable α β) (key : α) (lifeSpan : Int) (d : β)
    (now : Int) :
    t.Add key lifeSpan d now =
      (CreateCacheItem key lifeSpan d now,
       (if 0 < lifeSpan ∧ (t.cleanupInterval = 0 ∨ lifeSpan < t.cleanupInterval)
        then (({ t with items := setKey t.items key (CreateCacheItem key lifeSpan d now) }).expirationCheck now).1
        else { t with items := setKey t.items key (CreateCacheItem key lifeSpan d now) }),
       (if t.addedItem then [CacheEvent.onAdded key] else []) ++
       (if 0 < lifeSpan ∧ (t.cleanupInterval = 0 ∨ lifeSpan < t.cleanupInterval)
        then (({ t with items := setKey t.items key (CreateCacheItem key lifeSpan d now) }).expirationCheck now).2
        else [])) := by
  by_cases h : 0 < lifeSpan ∧ (t.cleanupInterval = 0 ∨ lifeSpan < t.cleanupInterval)
  · simp [CacheTable.Add, h]
  · simp [CacheTable.Add, h]

/-- C3: deleting a present key returns the removed entry, with effects in
this order: the table-level `aboutToDeleteItem` callback (if set), then the
entry's own expiry callback (if set), then removal of the key from the map;
and the scheduler's scan performs its removals through this same delete path,
so each expired entry contributes exactly the `Delete` trace. -/
theorem Delete_correct (t : CacheTable α β) (key : α) (r : CacheItem α β)
    (h : lookupKey t.items key = some r) :
    t.Delete key =
      (Except.ok r, { t with items := eraseKey t.items key },
       (if t.aboutToDeleteItem then [CacheEvent.onAboutToDelete key] else []) ++
       (if r.aboutToExpire then [CacheEvent.expiryCallback key] else [])) ∧
    (∀ now, WF t → (t.expirationCheck now).2 =
      (expiredEntries now t.items).flatMap (fun p => (t.Delete p.1).2.2)) := by
  constructor
  · rw [Delete_present h]
    rfl
  · intro now hwf
    rw [expirationCheck_eq t now hwf]
    refine flatMap_congr ?_
    intro p hp
    have hmem : p ∈ t.items := (List.mem_filter.mp hp).1
    have hl : lookupKey t.items p.1 = some p.2 :=
      lookupKey_eq_some_of_mem hwf hmem
    rw [Delete_present hl]

/-- Witness for C3: deleting key 1 of `exTable`. -/
theorem Delete_correct_witness :
    lookupKey exTable.items 1 = some (exItem 1 5 0 0 true 10) ∧
    (exTable.Delete 1 =
      (Except.ok (exItem 1 5 0 0 true 10),
       { exTable with items := eraseKey exTable.items 1 },
       (if exTable.aboutToDeleteItem then [CacheEvent.onAboutToDelete 1]
        else []) ++
       (if (exItem 1 5 0 0 true 10).aboutToExpire
        then [CacheEvent.expiryCallback 1] else [])) ∧
     (∀ now, WF exTable → (exTable.expirationCheck now).2 =
       (expiredEntries now exTable.items).flatMap
         (fun p => (exTable.Delete p.1).2.2))) :=
  ⟨by decide, Delete_correct exTable 1 (exItem 1 5 0 0 true 10) (by decide)⟩

/-- C7: `Flush` empties the table, resets `cleanupInterval` to 0, leaves no
pending timer, and fires no callback at all. -/
theorem Flush_correct (t : CacheTable α β) :
    t.Flush.1.items = [] ∧ t.Flush.1.Count = 0 ∧
    t.Flush.1.cleanupInterval = 0 ∧ t.Flush.1.cleanupTimer ≠ some true ∧
    t.Flush.2 = [] := by
  refine ⟨rfl, rfl, rfl, ?_, rfl⟩
  cases h : t.cleanupTimer <;> simp [CacheTable.Flush, h]

/-- C4: the error taxonomy. `Delete` of an absent key fails with
`ErrKeyNotFound` leaving the table unchanged and firing nothing; `Value` of
an absent key fails with `ErrKeyNotFound` when no loader is installed, and
with `ErrKeyNotFoundOrLoadable` when the installed loader yields nothing.
The remaining operations (`Add`, `NotFoundAdd`, `Flush`, `Count`, `Foreach`,
`Exists`, `MostAccessed`) are total by the type of their embedding: they
return no error component. -/
theorem error_cases (t : CacheTable α β) (key : α) (now : Int)
    (habs : lookupKey t.items key = none) :
    t.Delete key = (Except.error CacheError.ErrKeyNotFound, t, []) ∧
    (t.loadData = none →
      t.Value key now = (Except.error CacheError.ErrKeyNotFound, t, [])) ∧
    (∀ f, t.loadData = some f → f key = none →
      t.Value key now =
        (Except.error CacheError.ErrKeyNotFoundOrLoadable, t, [])) := by
  refine ⟨Delete_absent habs, ?_, ?_⟩
  · intro hld
    simp [CacheTable.Value, habs, hld]
  · intro f hld hf
    simp [CacheTable.Value, habs, hld, hf]

/-- Witness for C4: key 7 is absent from `exTableLoader`, and its loader
yields nothing for key 7. -/
theorem error_cases_witness :
    lookupKey exTableLoader.items 7 = none ∧
    (exTableLoader.Delete 7 =
      (Except.error CacheError.ErrKeyNotFound, exTableLoader, []) ∧
     (exTableLoader.loadData = none →
       exTableLoader.Value 7 3 =
         (Except.error CacheError.ErrKeyNotFound, exTableLoader, [])) ∧
     (∀ f, exTableLoader.loadData = some f → f 7 = none →
       exTableLoader.Value 7 3 =
         (Except.error CacheError.ErrKeyNotFoundOrLoadable, exTableLoader, []))) :=
  ⟨by decide, error_cases exTableLoader 7 3 (by decide)⟩

/-- C5: `NotFoundAdd` of a present key reports `false` and changes nothing —
the table (entries, timestamps, scheduler state) is returned unchanged and no
callback fires, hence no scan is triggered; `NotFoundAdd` of an absent key
returns `true` and produces exactly the table and callback trace `Add`
produces, including `Add`'s scan-triggering rule. -/
theorem NotFoundAdd_correct (t : CacheTable α β) (key : α) (lifeSpan : Int)
    (d : β) (now : Int) :
    (∀ r, lookupKey t.items key = some r →
        t.NotFoundAdd key lifeSpan d now = (false, t, [])) ∧
    (lookupKey t.items key = none →
        t.NotFoundAdd key lifeSpan d now =
          (true, (t.Add key lifeSpan d now).2.1,
           (t.Add key lifeSpan d now).2.2)) := by
  constructor
  · intro r h
    simp [CacheTable.NotFoundAdd, h]
  · intro h
    by_cases hc : 0 < lifeSpan ∧
        (t.cleanupInterval = 0 ∨ lifeSpan < t.cleanupInterval)
    · simp [CacheTable.NotFoundAdd, CacheTable.Add, h, hc]
    · simp [CacheTable.NotFoundAdd, CacheTable.Add, h, hc]

/-- Witness for C5's two branches: key 1 is present in `exTable`, key 9 is
absent. The present branch is applied through the theorem; the hypothesis of
the absent branch is discharged on a second application. -/
theorem NotFoundAdd_correct_witness :
    lookupKey exTable.items 9 = none ∧
    ((∀ r, lookupKey exTable.items 9 = some r →
        exTable.NotFoundAdd 9 2 70 4 = (false, exTable, [])) ∧
     (lookupKey exTable.items 9 = none →
        exTable.NotFoundAdd 9 2 70 4 =
          (true, (exTable.Add 9 2 70 4).2.1, (exTable.Add 9 2 70 4).2.2))) :=
  ⟨by decide, NotFoundAdd_correct exTable 9 2 70 4⟩

theorem fresh_not_expired {key : α} {lifeSpan : Int} {d : β} {now : Int}
    (hls : 0 < lifeSpan) :
    isExpired now (CreateCacheItem key lifeSpan d now : CacheItem α β) = false := by
  have h1 : ¬ lifeSpan ≤ now - now := by omega
  simp [isExpired, CreateCacheItem, h1]
  omega

theorem add_scan_lookup {t : CacheTable α β} {key : α} {lifeSpan : Int}
    {d : β} {now : Int} (hwf : WF t) (hls : 0 < lifeSpan) :
    lookupKey (({ t with items := setKey t.items key (CreateCacheItem key lifeSpan d now) } : CacheTable α β).expirationCheck now).1.items key =
      some (CreateCacheItem key lifeSpan d now) := by
  have hwf1 : WF ({ t with items := setKey t.items key (CreateCacheItem key lifeSpan d now) } : CacheTable α β) :=
    keys_setKey_nodup hwf
  have hl : lookupKey ({ t with items := setKey t.items key (CreateCacheItem key lifeSpan d now) } : CacheTable α β).items key =
      some (CreateCacheItem key lifeSpan d now) := lookupKey_setKey_self
  rw [expirationCheck_lookup _ now hwf1 hl, fresh_not_expired hls]
  simp

theorem scan_event_key_expired {t : CacheTable α β} {now : Int} (hwf : WF t)
    {e : CacheEvent α} (he : e ∈ (t.expirationCheck now).2) :
    ∃ p ∈ t.items, isExpired now p.2 = true ∧
      (e = CacheEvent.onAboutToDelete p.1 ∨ e = CacheEvent.expiryCallback p.1) := by
  rw [expirationCheck_eq t now hwf] at he
  rcases List.mem_flatMap.mp he with ⟨p, hp, hep⟩
  have h2 := List.mem_filter.mp hp
  exact ⟨p, h2.1, h2.2, mem_deleteEvents_key hep⟩

/-- C2: `Add` stores a freshly created entry at the key (overwriting any
prior binding, leaving other keys untouched), returns that entry, fires
`addedItem` exactly when it is installed, and runs an expiration scan
synchronously exactly when `lifeSpan > 0` and the scheduled interval is 0 or
larger than `lifeSpan`; otherwise the table is only the inserted one. -/
theorem Add_correct (t : CacheTable α β) (key : α) (lifeSpan : Int) (d : β)
    (now : Int) (hwf : WF t) :
    (t.Add key lifeSpan d now).1 = CreateCacheItem key lifeSpan d now ∧
    lookupKey (t.Add key lifeSpan d now).2.1.items key =
      some (CreateCacheItem key lifeSpan d now) ∧
    (∀ k, ¬ k = key →
      lookupKey (setKey t.items key (CreateCacheItem key lifeSpan d now)) k =
        lookupKey t.items k) ∧
    (t.Add key lifeSpan d now).2.2 =
      (if t.addedItem then [CacheEvent.onAdded key] else []) ++
      (if 0 < lifeSpan ∧ (t.cleanupInterval = 0 ∨ lifeSpan < t.cleanupInterval)
       then (({ t with items := setKey t.items key (CreateCacheItem key lifeSpan d now) } : CacheTable α β).expirationCheck now).2
       else []) ∧
    (t.Add key lifeSpan d now).2.1 =
      (if 0 < lifeSpan ∧ (t.cleanupInterval = 0 ∨ lifeSpan < t.cleanupInterval)
       then (({ t with items := setKey t.items key (CreateCacheItem key lifeSpan d now) } : CacheTable α β).expirationCheck now).1
       else { t with items := setKey t.items key (CreateCacheItem key lifeSpan d now) }) := by
  rw [Add_eq]
  refine ⟨rfl, ?_, ?_, rfl, rfl⟩
  · by_cases hc : 0 < lifeSpan ∧
        (t.cleanupInterval = 0 ∨ lifeSpan < t.cleanupInterval)
    · simp only [hc, if_pos]
      exact add_scan_lookup hwf hc.1
    · simp only [if_neg hc]
      exact lookupKey_setKey_self
  · intro k hk
    exact lookupKey_setKey_ne hk

/-- Witness for C2: adding key 9 with lifespan 2 to `exTable` at time 4
(2 < 7, so the scan fires). -/
theorem Add_correct_witness :
    WF exTable ∧
    ((exTable.Add 9 2 70 4).1 = CreateCacheItem 9 2 70 4 ∧
     lookupKey (exTable.Add 9 2 70 4).2.1.items 9 =
       some (CreateCacheItem 9 2 70 4) ∧
     (∀ k, ¬ k = 9 →
       lookupKey (setKey exTable.items 9 (CreateCacheItem 9 2 70 4)) k =
         lookupKey exTable.items k) ∧
     (exTable.Add 9 2 70 4).2.2 =
       (if exTable.addedItem then [CacheEvent.onAdded 9] else []) ++
       (if 0 < (2 : Int) ∧ (exTable.cleanupInterval = 0 ∨ 2 < exTable.cleanupInterval)
        then (({ exTable with items := setKey exTable.items 9 (CreateCacheItem 9 2 70 4) } : CacheTable Nat Nat).expirationCheck 4).2
        else []) ∧
     (exTable.Add 9 2 70 4).2.1 =
       (if 0 < (2 : Int) ∧ (exTable.cleanupInterval = 0 ∨ 2 < exTable.cleanupInterval)
        then (({ exTable with items := setKey exTable.items 9 (CreateCacheItem 9 2 70 4) } : CacheTable Nat Nat).expirationCheck 4).1
        else { exTable with items := setKey exTable.items 9 (CreateCacheItem 9 2 70 4) })) :=
  ⟨by decide, Add_correct exTable 9 2 70 4 (by decide)⟩

/-- C9: `Add` on an already present key silently replaces the old entry:
no `onAboutToDelete` and no expiry callback is ever emitted for that key,
and the key afterwards holds a fresh entry with `accessCount` 0,
`createdOn = accessedOn = now` and no expiry callback, whatever the replaced
entry contained. -/
theorem Add_overwrite (t : CacheTable α β) (key : α) (lifeSpan : Int) (d : β)
    (now : Int) (hwf : WF t) (old : CacheItem α β)
    (hold : lookupKey t.items key = some old) :
    lookupKey (t.Add key lifeSpan d now).2.1.items key =
      some (CreateCacheItem key lifeSpan d now) ∧
    CacheEvent.onAboutToDelete key ∉ (t.Add key lifeSpan d now).2.2 ∧
    CacheEvent.expiryCallback key ∉ (t.Add key lifeSpan d now).2.2 ∧
    (CreateCacheItem key lifeSpan d now : CacheItem α β).accessCount = 0 ∧
    (CreateCacheItem key lifeSpan d now : CacheItem α β).createdOn = now ∧
    (CreateCacheItem key lifeSpan d now : CacheItem α β).accessedOn = now ∧
    (CreateCacheItem key lifeSpan d now : CacheItem α β).aboutToExpire = false := by
  have hnodel : ∀ e, e ∈ (t.Add key lifeSpan d now).2.2 →
      e ≠ CacheEvent.onAboutToDelete key ∧ e ≠ CacheEvent.expiryCallback key := by
    intro e he
    rw [Add_eq] at he
    rcases List.mem_append.mp he with h1 | h1
    · rcases ha : t.addedItem <;> rw [ha] at h1 <;> simp at h1
      subst h1
      exact ⟨fun hh => CacheEvent.noConfusion hh,
        fun hh => CacheEvent.noConfusion hh⟩
    · by_cases hc : 0 < lifeSpan ∧
          (t.cleanupInterval = 0 ∨ lifeSpan < t.cleanupInterval)
      · rw [if_pos hc] at h1
        have hwf1 : WF ({ t with items := setKey t.items key (CreateCacheItem key lifeSpan d now) } : CacheTable α β) :=
          keys_setKey_nodup hwf
        rcases scan_event_key_expired hwf1 h1 with ⟨p, hp, hexp, hef⟩
        have hkey : ¬ p.1 = key := by
          intro hpk
          have hlf : lookupKey ({ t with items := setKey t.items key (CreateCacheItem key lifeSpan d now) } : CacheTable α β).items p.1 =
              some (CreateCacheItem key lifeSpan d now) := by
            rw [hpk]
            exact lookupKey_setKey_self
          have hpp : p = (p.1, CreateCacheItem key lifeSpan d now) := by
            have := lookupKey_eq_some_of_mem hwf1 hp
            rw [hlf] at this
            exact Prod.ext rfl (by simpa using this.symm)
          rw [hpp] at hexp
          rw [fresh_not_expired hc.1] at hexp
          cases hexp
        constructor
        · intro hh
          rcases hef with h | h
          · rw [hh] at h
            exact hkey (by cases h; rfl)
          · rw [hh] at h
            cases h
        · intro hh
          rcases hef with h | h
          · rw [hh] at h
            cases h
          · rw [hh] at h
            exact hkey (by cases h; rfl)
      · rw [if_neg hc] at h1
        simp at h1
  refine ⟨?_, ?_, ?_, rfl, rfl, rfl, rfl⟩
  · rw [Add_eq]
    by_cases hc : 0 < lifeSpan ∧
        (t.cleanupInterval = 0 ∨ lifeSpan < t.cleanupInterval)
    · simp only [hc, if_pos]
      exact add_scan_lookup hwf hc.1
    · simp only [if_neg hc]
      exact lookupKey_setKey_self
  · intro hmem
    exact (hnodel _ hmem).1 rfl
  · intro hmem
    exact (hnodel _ hmem).2 rfl

/-- Witness for C9: overwriting key 1 of `exTable` (whose old entry has a
positive access count and an installed expiry callback). -/
theorem Add_overwrite_witness :
    WF exTable ∧ lookupKey exTable.items 1 = some (exItem 1 5 0 0 true 10) ∧
    (lookupKey (exTable.Add 1 2 70 4).2.1.items 1 =
       some (CreateCacheItem 1 2 70 4) ∧
     CacheEvent.onAboutToDelete 1 ∉ (exTable.Add 1 2 70 4).2.2 ∧
     CacheEvent.expiryCallback 1 ∉ (exTable.Add 1 2 70 4).2.2 ∧
     (CreateCacheItem 1 2 70 4 : CacheItem Nat Nat).accessCount = 0 ∧
     (CreateCacheItem 1 2 70 4 : CacheItem Nat Nat).createdOn = 4 ∧
     (CreateCacheItem 1 2 70 4 : CacheItem Nat Nat).accessedOn = 4 ∧
     (CreateCacheItem 1 2 70 4 : CacheItem Nat Nat).aboutToExpire = false) :=
  ⟨by decide, by decide,
   Add_overwrite exTable 1 2 70 4 (by decide) (exItem 1 5 0 0 true 10) (by decide)⟩

/-- C10: on a miss with an installed loader that yields `e`, `Value` stores a
fresh entry built only from `e`'s lifespan and data (access count 0, no
expiry callback, created and accessed at `now`) while returning `e` itself
unchanged — in particular no keep-alive is applied to the returned entry. -/
theorem Value_loader_correct (t : CacheTable α β) (key : α) (now : Int)
    (f : α → Option (CacheItem α β)) (e : CacheItem α β) (hwf : WF t)
    (habs : lookupKey t.items key = none) (hld : t.loadData = some f)
    (hfe : f key = some e) :
    (t.Value key now).1 = Except.ok e ∧
    lookupKey (t.Value key now).2.1.items key =
      some (CreateCacheItem key e.lifeSpan e.data now) ∧
    (CreateCacheItem key e.lifeSpan e.data now : CacheItem α β).accessCount = 0 ∧
    (CreateCacheItem key e.lifeSpan e.data now : CacheItem α β).aboutToExpire = false ∧
    (CreateCacheItem key e.lifeSpan e.data now : CacheItem α β).createdOn = now ∧
    (CreateCacheItem key e.lifeSpan e.data now : CacheItem α β).accessedOn = now := by
  have hval : t.Value key now =
      (Except.ok e, (t.Add key e.lifeSpan e.data now).2.1,
       (t.Add key e.lifeSpan e.data now).2.2) := by
    simp [CacheTable.Value, habs, hld, hfe]
  rw [hval]
  refine ⟨rfl, ?_, rfl, rfl, rfl, rfl⟩
  rw [Add_eq]
  by_cases hc : 0 < e.lifeSpan ∧
      (t.cleanupInterval = 0 ∨ e.lifeSpan < t.cleanupInterval)
  · simp only [hc, if_pos]
    exact add_scan_lookup hwf hc.1
  · simp only [if_neg hc]
    exact lookupKey_setKey_self

/-- Witness for C10: a miss on key 42 of `exTableLoader`, whose loader
yields an item with nonzero metadata. -/
theorem Value_loader_correct_witness :
    WF exTableLoader ∧ lookupKey exTableLoader.items 42 = none ∧
    exTableLoader.loadData = some exLoader ∧
    exLoader 42 = some (exItem 42 6 1 5 true 50) ∧
    ((exTableLoader.Value 42 4).1 = Except.ok (exItem 42 6 1 5 true 50) ∧
     lookupKey (exTableLoader.Value 42 4).2.1.items 42 =
       some (CreateCacheItem 42 (exItem 42 6 1 5 true 50).lifeSpan
         (exItem 42 6 1 5 true 50).data 4) ∧
     (CreateCacheItem 42 (exItem 42 6 1 5 true 50).lifeSpan
       (exItem 42 6 1 5 true 50).data 4 : CacheItem Nat Nat).accessCount = 0 ∧
     (CreateCacheItem 42 (exItem 42 6 1 5 true 50).lifeSpan
       (exItem 42 6 1 5 true 50).data 4 : CacheItem Nat Nat).aboutToExpire = false ∧
     (CreateCacheItem 42 (exItem 42 6 1 5 true 50).lifeSpan
       (exItem 42 6 1 5 true 50).data 4 : CacheItem Nat Nat).createdOn = 4 ∧
     (CreateCacheItem 42 (exItem 42 6 1 5 true 50).lifeSpan
       (exItem 42 6 1 5 true 50).data 4 : CacheItem Nat Nat).accessedOn = 4) :=
  ⟨by decide, by decide, rfl, by decide,
   Value_loader_correct exTableLoader 42 4 exLoader (exItem 42 6 1 5 true 50)
     (by decide) (by decide) rfl (by decide)⟩

/-! Lemmas for `MostAccessed`. -/

theorem mostAccessedLoop_length (t : CacheTable α β) (l : List (α × Nat)) :
    ∀ (c n : Int), (mostAccessedLoop t l c n).length ≤ (n - c).toNat := by
  induction l with
  | nil =>
      intro c n
      simp [mostAccessedLoop]
  | cons q L ih =>
      intro c n
      by_cases h : n ≤ c
      · simp [mostAccessedLoop, h]
      · rcases hlk : lookupKey t.items q.1 with _ | it
        · rw [show mostAccessedLoop t (q :: L) c n =
              mostAccessedLoop t L (c + 1) n from by
            simp [mostAccessedLoop, h, hlk]]
          have := ih (c + 1) n
          omega
        · rw [show mostAccessedLoop t (q :: L) c n =
              it :: mostAccessedLoop t L (c + 1) n from by
            simp [mostAccessedLoop, h, hlk]]
          have := ih (c + 1) n
          simp only [List.length_cons]
          omega

theorem mostAccessedLoop_map_count (t : CacheTable α β) (l : List (α × Nat))
    (hl : ∀ q ∈ l, ∃ it, lookupKey t.items q.1 = some it ∧
      it.accessCount = q.2) :
    ∀ (c n : Int), (mostAccessedLoop t l c n).map (fun it => it.accessCount) =
      (l.take ((n - c).toNat)).map Prod.snd := by
  induction l with
  | nil =>
      intro c n
      simp [mostAccessedLoop]
  | cons q L ih =>
      intro c n
      obtain ⟨it, hit, hcnt⟩ := hl q (List.mem_cons_self _ _)
      by_cases h : n ≤ c
      · have h0 : (n - c).toNat = 0 := by omega
        simp [mostAccessedLoop, h, h0]
      · have htn : (n - c).toNat = (n - (c + 1)).toNat + 1 := by omega
        rw [show mostAccessedLoop t (q :: L) c n =
            it :: mostAccessedLoop t L (c + 1) n from by
          simp [mostAccessedLoop, h, hit]]
        rw [htn]
        simp only [List.take_succ_cons, List.map_cons]
        rw [hcnt, ih (fun p hp => hl p (List.mem_cons_of_mem _ hp)) (c + 1) n]

theorem mostAccessedLoop_eq_filterMap (t : CacheTable α β)
    (l : List (α × Nat)) :
    ∀ (c n : Int), (l.length : Int) ≤ n - c →
      mostAccessedLoop t l c n =
        l.filterMap (fun q => lookupKey t.items q.1) := by
  induction l with
  | nil =>
      intro c n h
      simp [mostAccessedLoop]
  | cons q L ih =>
      intro c n h
      simp only [List.length_cons] at h
      have hn : ¬ n ≤ c := by push_cast at h; omega
      have hlen : (L.length : Int) ≤ n - (c + 1) := by push_cast at h; omega
      rcases hlk : lookupKey t.items q.1 with _ | it
      · rw [show mostAccessedLoop t (q :: L) c n =
            mostAccessedLoop t L (c + 1) n from by
          simp [mostAccessedLoop, hn, hlk]]
        simp [List.filterMap_cons, hlk, ih (c + 1) n hlen]
      · rw [show mostAccessedLoop t (q :: L) c n =
            it :: mostAccessedLoop t L (c + 1) n from by
          simp [mostAccessedLoop, hn, hlk]]
        simp [List.filterMap_cons, hlk, ih (c + 1) n hlen]

/-- C6: `MostAccessed n` returns at most `n` entries, in non-increasing order
of access count, and returns every entry of the table when `n` is at least
the table size. -/
theorem MostAccessed_correct (t : CacheTable α β) (n : Int) (hwf : WF t) :
    ((t.MostAccessed n).length : Int) ≤ max n 0 ∧
    List.Chain' (fun a b => b.accessCount ≤ a.accessCount)
      (t.MostAccessed n) ∧
    ((t.Count : Int) ≤ n → (t.MostAccessed n).Perm (t.items.map Prod.snd)) := by
  have hMA : t.MostAccessed n =
      mostAccessedLoop t
        ((t.items.map (fun kv => (kv.1, kv.2.accessCount))).mergeSort
          (fun a b => b.2 ≤ a.2)) 0 n := rfl
  have hperm : List.Perm
      ((t.items.map (fun kv => (kv.1, kv.2.accessCount))).mergeSort
        (fun a b => b.2 ≤ a.2))
      (t.items.map (fun kv => (kv.1, kv.2.accessCount))) :=
    List.mergeSort_perm _ _
  have hl : ∀ q ∈ (t.items.map (fun kv => (kv.1, kv.2.accessCount))).mergeSort
      (fun a b => b.2 ≤ a.2),
      ∃ it, lookupKey t.items q.1 = some it ∧ it.accessCount = q.2 := by
    intro q hq
    have hq2 : q ∈ t.items.map (fun kv => (kv.1, kv.2.accessCount)) :=
      hperm.mem_iff.mp hq
    rcases List.mem_map.mp hq2 with ⟨kv, hkv, hq3⟩
    refine ⟨kv.2, ?_, ?_⟩
    · rw [← hq3]
      exact lookupKey_eq_some_of_mem hwf hkv
    · rw [← hq3]
  refine ⟨?_, ?_, ?_⟩
  · rw [hMA]
    have h1 := mostAccessedLoop_length t
      ((t.items.map (fun kv => (kv.1, kv.2.accessCount))).mergeSort
        (fun a b => b.2 ≤ a.2)) 0 n
    have h2 : ((n - 0).toNat : Int) = max (n - 0) 0 := Int.toNat_eq_max _
    omega
  · rw [hMA]
    have hcnt := mostAccessedLoop_map_count t
      ((t.items.map (fun kv => (kv.1, kv.2.accessCount))).mergeSort
        (fun a b => b.2 ≤ a.2)) hl 0 n
    have hsorted : ((t.items.map (fun kv => (kv.1, kv.2.accessCount))).mergeSort
        (fun a b => b.2 ≤ a.2)).Pairwise
          (fun a b => (decide (b.2 ≤ a.2)) = true) :=
      List.sorted_mergeSort
        (by
          intro a b c hab hbc
          simp only [decide_eq_true_eq] at hab hbc ⊢
          omega)
        (by
          intro a b
          simp only [Bool.or_eq_true, decide_eq_true_eq]
          omega)
        (t.items.map (fun kv => (kv.1, kv.2.accessCount)))
    have htake := List.Pairwise.sublist
      (List.take_sublist ((n - 0).toNat) _) hsorted
    have hmapped : ((((t.items.map (fun kv => (kv.1, kv.2.accessCount))).mergeSort
          (fun a b => b.2 ≤ a.2)).take ((n - 0).toNat)).map Prod.snd).Pairwise
        (fun x y => y ≤ x) :=
      List.Pairwise.map Prod.snd
        (by
          intro a b hab
          simpa using hab) htake
    have hchain := hmapped.chain'
    rw [← hcnt] at hchain
    exact (List.chain'_map (fun it : CacheItem α β => it.accessCount)).mp hchain
  · intro hn
    rw [hMA]
    have hlen : ((((t.items.map (fun kv => (kv.1, kv.2.accessCount))).mergeSort
        (fun a b => b.2 ≤ a.2)).length : Int)) ≤ n - 0 := by
      rw [List.length_mergeSort, List.length_map]
      simpa [CacheTable.Count] using hn
    rw [mostAccessedLoop_eq_filterMap t _ 0 n hlen]
    have hp2 := hperm.filterMap (fun q => lookupKey t.items q.1)
    refine hp2.trans ?_
    rw [List.filterMap_map]
    have hcong : t.items.filterMap
        ((fun q => lookupKey t.items q.1) ∘
          (fun kv => (kv.1, kv.2.accessCount))) =
        t.items.filterMap (fun kv => some kv.2) :=
      List.filterMap_congr
        (fun kv hkv => lookupKey_eq_some_of_mem hwf hkv)
    rw [hcong]
    rw [show t.items.filterMap (fun kv => some kv.2) =
        t.items.map Prod.snd from
      congrFun (List.filterMap_eq_map Prod.snd) t.items]

/-- Witness for C6: the top two entries of `exTable`. -/
theorem MostAccessed_correct_witness :
    WF exTable ∧
    (((exTable.MostAccessed 2).length : Int) ≤ max 2 0 ∧
     List.Chain' (fun a b => b.accessCount ≤ a.accessCount)
       (exTable.MostAccessed 2) ∧
     ((exTable.Count : Int) ≤ 2 →
       (exTable.MostAccessed 2).Perm (exTable.items.map Prod.snd))) :=
  ⟨by decide, MostAccessed_correct exTable 2 (by decide)⟩

/-! Helper equations for the operation-sequence invariants. -/

theorem NotFoundAdd_present_eq {t : CacheTable α β} {key : α}
    {r : CacheItem α β} {lifeSpan : Int} {d : β} {now : Int}
    (h : lookupKey t.items key = some r) :
    t.NotFoundAdd key lifeSpan d now = (false, t, []) := by
  simp [CacheTable.NotFoundAdd, h]

theorem NotFoundAdd_absent_eq {t : CacheTable α β} {key : α}
    {lifeSpan : Int} {d : β} {now : Int}
    (h : lookupKey t.items key = none) :
    t.NotFoundAdd key lifeSpan d now =
      (true, (t.Add key lifeSpan d now).2.1, (t.Add key lifeSpan d now).2.2) := by
  by_cases hc : 0 < lifeSpan ∧
      (t.cleanupInterval = 0 ∨ lifeSpan < t.cleanupInterval)
  · simp [CacheTable.NotFoundAdd, CacheTable.Add, h, hc]
  · simp [CacheTable.NotFoundAdd, CacheTable.Add, h, hc]

theorem Value_present_eq {t : CacheTable α β} {key : α} {r : CacheItem α β}
    {now : Int} (h : lookupKey t.items key = some r) :
    t.Value key now =
      (Except.ok (r.KeepAlive now),
       { t with items := setKey t.items key (r.KeepAlive now) }, []) := by
  simp [CacheTable.Value, h]

theorem Value_loader_eq {t : CacheTable α β} {key : α} {now : Int}
    {f : α → Option (CacheItem α β)} {e : CacheItem α β}
    (habs : lookupKey t.items key = none) (hld : t.loadData = some f)
    (hfe : f key = some e) :
    t.Value key now =
      (Except.ok e, (t.Add key e.lifeSpan e.data now).2.1,
       (t.Add key e.lifeSpan e.data now).2.2) := by
  simp [CacheTable.Value, habs, hld, hfe]

theorem Add_items_subset {t : CacheTable α β} {key : α} {lifeSpan : Int}
    {d : β} {now : Int} {p : α × CacheItem α β}
    (h : p ∈ (t.Add key lifeSpan d now).2.1.items) :
    p ∈ setKey t.items key (CreateCacheItem key lifeSpan d now) := by
  rw [Add_eq] at h
  by_cases hc : 0 < lifeSpan ∧
      (t.cleanupInterval = 0 ∨ lifeSpan < t.cleanupInterval)
  · rw [if_pos hc] at h
    exact expirationCheck_items_subset h
  · rw [if_neg hc] at h
    exact h

theorem lookupKey_eraseKey_self {l : List (α × CacheItem α β)} {key : α}
    (hnd : (l.map Prod.fst).Nodup) :
    lookupKey (eraseKey l key) key = none := by
  rw [eraseKey_eq_filter hnd, lookupKey_filter _ hnd]
  cases h : lookupKey l key <;> simp [h]

theorem lookup_Add_ne {t : CacheTable α β} {key : α} {lifeSpan : Int} {d : β}
    {now : Int} (hwf : WF t) {k : α} (hk : ¬ k = key) {it : CacheItem α β}
    (h1 : lookupKey t.items k = some it) :
    lookupKey (t.Add key lifeSpan d now).2.1.items k = none ∨
    lookupKey (t.Add key lifeSpan d now).2.1.items k = some it := by
  rw [Add_eq]
  by_cases hc : 0 < lifeSpan ∧
      (t.cleanupInterval = 0 ∨ lifeSpan < t.cleanupInterval)
  · simp only [if_pos hc]
    have hwf1 : WF ({ t with items := setKey t.items key (CreateCacheItem key lifeSpan d now) } : CacheTable α β) :=
      keys_setKey_nodup hwf
    have hm1 : lookupKey ({ t with items := setKey t.items key (CreateCacheItem key lifeSpan d now) } : CacheTable α β).items k = some it := by
      show lookupKey (setKey t.items key (CreateCacheItem key lifeSpan d now)) k = some it
      rw [lookupKey_setKey_ne hk]
      exact h1
    rw [expirationCheck_lookup _ now hwf1 hm1]
    by_cases hx : isExpired now it = true
    · simp [hx]
    · simp [hx]
  · simp only [if_neg hc]
    right
    show lookupKey (setKey t.items key (CreateCacheItem key lifeSpan d now)) k = some it
    rw [lookupKey_setKey_ne hk]
    exact h1

theorem WF_Add {t : CacheTable α β} {key : α} {lifeSpan : Int} {d : β}
    {now : Int} (hwf : WF t) : WF (t.Add key lifeSpan d now).2.1 := by
  rw [Add_eq]
  by_cases hc : 0 < lifeSpan ∧
      (t.cleanupInterval = 0 ∨ lifeSpan < t.cleanupInterval)
  · rw [if_pos hc]
    rw [expirationCheck_eq _ now (keys_setKey_nodup hwf)]
    exact nodup_keys_filter _ (keys_setKey_nodup hwf)
  · rw [if_neg hc]
    exact keys_setKey_nodup hwf

theorem EntryInv_mono {T now : Int} {it : CacheItem α β}
    (h : EntryInv T it) (hT : T ≤ now) : EntryInv now it :=
  ⟨h.1, le_trans h.2 hT⟩

theorem step_TableInv {t : CacheTable α β} {T now : Int} {op : TableOp α β}
    (hinv : TableInv T t) (hT : T ≤ now) :
    TableInv now (step t op now) := by
  cases op with
  | add key ls d =>
      intro p hp
      rcases mem_setKey (Add_items_subset hp) with h | h
      · rw [h]
        exact ⟨le_refl _, le_refl _⟩
      · exact EntryInv_mono (hinv p h) hT
  | notFoundAdd key ls d =>
      rcases hlk : lookupKey t.items key with _ | r
      · intro p hp
        rw [show step t (TableOp.notFoundAdd key ls d) now =
            (t.Add key ls d now).2.1 from by
          simp [step, NotFoundAdd_absent_eq hlk]] at hp
        rcases mem_setKey (Add_items_subset hp) with h | h
        · rw [h]
          exact ⟨le_refl _, le_refl _⟩
        · exact EntryInv_mono (hinv p h) hT
      · intro p hp
        rw [show step t (TableOp.notFoundAdd key ls d) now = t from by
          simp [step, NotFoundAdd_present_eq hlk]] at hp
        exact EntryInv_mono (hinv p hp) hT
  | del key =>
      intro p hp
      exact EntryInv_mono (hinv p (Delete_items_subset hp)) hT
  | value key =>
      rcases hlk : lookupKey t.items key with _ | r
      · rcases hld : t.loadData with _ | f
        · intro p hp
          rw [show step t (TableOp.value key) now = t from by
            simp [step, CacheTable.Value, hlk, hld]] at hp
          exact EntryInv_mono (hinv p hp) hT
        · rcases hfe : f key with _ | e
          · intro p hp
            rw [show step t (TableOp.value key) now = t from by
              simp [step, CacheTable.Value, hlk, hld, hfe]] at hp
            exact EntryInv_mono (hinv p hp) hT
          · intro p hp
            rw [show step t (TableOp.value key) now =
                (t.Add key e.lifeSpan e.data now).2.1 from by
              simp [step, Value_loader_eq hlk hld hfe]] at hp
            rcases mem_setKey (Add_items_subset hp) with h | h
            · rw [h]
              exact ⟨le_refl _, le_refl _⟩
            · exact EntryInv_mono (hinv p h) hT
      · intro p hp
        rw [show step t (TableOp.value key) now =
            { t with items := setKey t.items key (r.KeepAlive now) } from by
          simp [step, Value_present_eq hlk]] at hp
        rcases mem_setKey hp with h | h
        · rw [h]
          have hr : EntryInv T r := hinv (key, r) (lookupKey_mem hlk)
          exact ⟨by
            show r.createdOn ≤ now
            exact le_trans hr.1 (le_trans hr.2 hT), le_refl _⟩
        · exact EntryInv_mono (hinv p h) hT
  | flush =>
      intro p hp
      simp [step, CacheTable.Flush] at hp
  | tick =>
      intro p hp
      exact EntryInv_mono (hinv p (expirationCheck_items_subset hp)) hT
  | keepAlive key =>
      rcases hlk : lookupKey t.items key with _ | r
      · intro p hp
        rw [show step t (TableOp.keepAlive key) now = t from by
          simp [step, hlk]] at hp
        exact EntryInv_mono (hinv p hp) hT
      · intro p hp
        rw [show step t (TableOp.keepAlive key) now =
            { t with items := setKey t.items key (r.KeepAlive now) } from by
          simp [step, hlk]] at hp
        rcases mem_setKey hp with h | h
        · rw [h]
          have hr : EntryInv T r := hinv (key, r) (lookupKey_mem hlk)
          exact ⟨by
            show r.createdOn ≤ now
            exact le_trans hr.1 (le_trans hr.2 hT), le_refl _⟩
        · exact EntryInv_mono (hinv p h) hT
  | setExpiry key b =>
      rcases hlk : lookupKey t.items key with _ | r
      · intro p hp
        rw [show step t (TableOp.setExpiry key b) now = t from by
          simp [step, hlk]] at hp
        exact EntryInv_mono (hinv p hp) hT
      · intro p hp
        rw [show step t (TableOp.setExpiry key b) now =
            { t with items := setKey t.items key (r.SetAboutToExpireCallback b) } from by
          simp [step, hlk]] at hp
        rcases mem_setKey hp with h | h
        · rw [h]
          have hr : EntryInv T r := hinv (key, r) (lookupKey_mem hlk)
          exact EntryInv_mono hr hT
        · exact EntryInv_mono (hinv p h) hT

theorem run_TableInv {t0 : CacheTable α β} {T : Int}
    {ops : List (TableOp α β × Int)} (hinv : TableInv T t0)
    (hmono : timesMono T ops) :
    TableInv (lastTime T ops) (run t0 ops) := by
  induction ops generalizing t0 T with
  | nil => exact hinv
  | cons o rest ih =>
      obtain ⟨op, now⟩ := o
      exact ih (step_TableInv hinv hmono.1) hmono.2

theorem lookup_Add_self {t : CacheTable α β} {key : α} {lifeSpan : Int}
    {d : β} {now : Int} (hwf : WF t) :
    lookupKey (t.Add key lifeSpan d now).2.1.items key =
      some (CreateCacheItem key lifeSpan d now) := by
  rw [Add_eq]
  by_cases hc : 0 < lifeSpan ∧
      (t.cleanupInterval = 0 ∨ lifeSpan < t.cleanupInterval)
  · simp only [if_pos hc]
    exact add_scan_lookup hwf hc.1
  · simp only [if_neg hc]
    exact lookupKey_setKey_self

theorem step_accessCount {t : CacheTable α β} {op : TableOp α β} {now : Int}
    (hwf : WF t) {k : α} {it it' : CacheItem α β}
    (h1 : lookupKey t.items k = some it)
    (h2 : lookupKey (step t op now).items k = some it') :
    it.accessCount ≤ it'.accessCount ∨
    (it'.accessCount = 0 ∧ it'.createdOn = now ∧ it'.accessedOn = now) := by
  cases op with
  | add key ls d =>
      simp only [step] at h2
      by_cases hk : k = key
      · subst hk
        rw [lookup_Add_self hwf] at h2
        right
        obtain rfl := Option.some.inj h2
        exact ⟨rfl, rfl, rfl⟩
      · rcases lookup_Add_ne hwf hk h1 with h | h
        · rw [h] at h2
          cases h2
        · rw [h] at h2
          obtain rfl := Option.some.inj h2
          exact Or.inl (le_refl _)
  | notFoundAdd key ls d =>
      simp only [step] at h2
      rcases hlk : lookupKey t.items key with _ | r
      · simp only [NotFoundAdd_absent_eq hlk] at h2
        by_cases hk : k = key
        · subst hk
          rw [hlk] at h1
          cases h1
        · rcases lookup_Add_ne hwf hk h1 with h | h
          · rw [h] at h2
            cases h2
          · rw [h] at h2
            obtain rfl := Option.some.inj h2
            exact Or.inl (le_refl _)
      · simp only [NotFoundAdd_present_eq hlk] at h2
        rw [h1] at h2
        obtain rfl := Option.some.inj h2
        exact Or.inl (le_refl _)
  | del key =>
      simp only [step] at h2
      rcases hlk : lookupKey t.items key with _ | r
      · simp only [Delete_absent hlk] at h2
        rw [h1] at h2
        obtain rfl := Option.some.inj h2
        exact Or.inl (le_refl _)
      · simp only [Delete_present hlk] at h2
        by_cases hk : k = key
        · subst hk
          rw [lookupKey_eraseKey_self hwf] at h2
          cases h2
        · rw [lookupKey_eraseKey_ne hwf hk, h1] at h2
          obtain rfl := Option.some.inj h2
          exact Or.inl (le_refl _)
  | value key =>
      simp only [step] at h2
      rcases hlk : lookupKey t.items key with _ | r
      · rcases hld : t.loadData with _ | f
        · simp only [CacheTable.Value, hlk, hld] at h2
          rw [h1] at h2
          obtain rfl := Option.some.inj h2
          exact Or.inl (le_refl _)
        · rcases hfe : f key with _ | e
          · simp only [CacheTable.Value, hlk, hld, hfe] at h2
            rw [h1] at h2
            obtain rfl := Option.some.inj h2
            exact Or.inl (le_refl _)
          · simp only [Value_loader_eq hlk hld hfe] at h2
            by_cases hk : k = key
            · subst hk
              rw [hlk] at h1
              cases h1
            · rcases lookup_Add_ne hwf hk h1 with h | h
              · rw [h] at h2
                cases h2
              · rw [h] at h2
                obtain rfl := Option.some.inj h2
                exact Or.inl (le_refl _)
      · simp only [Value_present_eq hlk] at h2
        by_cases hk : k = key
        · subst hk
          rw [lookupKey_setKey_self] at h2
          obtain rfl := Option.some.inj h2
          rw [hlk] at h1
          obtain rfl := Option.some.inj h1
          exact Or.inl (Nat.le_succ _)
        · rw [lookupKey_setKey_ne hk, h1] at h2
          obtain rfl := Option.some.inj h2
          exact Or.inl (le_refl _)
  | flush =>
      simp [step, CacheTable.Flush, lookupKey] at h2
  | tick =>
      simp only [step] at h2
      rw [expirationCheck_lookup t now hwf h1] at h2
      by_cases hx : isExpired now it = true
      · rw [if_pos hx] at h2
        cases h2
      · rw [if_neg hx] at h2
        obtain rfl := Option.some.inj h2
        exact Or.inl (le_refl _)
  | keepAlive key =>
      simp only [step] at h2
      rcases hlk : lookupKey t.items key with _ | r
      · simp only [hlk] at h2
        rw [h1] at h2
        obtain rfl := Option.some.inj h2
        exact Or.inl (le_refl _)
      · simp only [hlk] at h2
        by_cases hk : k = key
        · subst hk
          rw [lookupKey_setKey_self] at h2
          obtain rfl := Option.some.inj h2
          rw [hlk] at h1
          obtain rfl := Option.some.inj h1
          exact Or.inl (Nat.le_succ _)
        · rw [lookupKey_setKey_ne hk, h1] at h2
          obtain rfl := Option.some.inj h2
          exact Or.inl (le_refl _)
  | setExpiry key b =>
      simp only [step] at h2
      rcases hlk : lookupKey t.items key with _ | r
      · simp only [hlk] at h2
        rw [h1] at h2
        obtain rfl := Option.some.inj h2
        exact Or.inl (le_refl _)
      · simp only [hlk] at h2
        by_cases hk : k = key
        · subst hk
          rw [lookupKey_setKey_self] at h2
          obtain rfl := Option.some.inj h2
          rw [hlk] at h1
          obtain rfl := Option.some.inj h1
          exact Or.inl (le_refl _)
        · rw [lookupKey_setKey_ne hk, h1] at h2
          obtain rfl := Option.some.inj h2
          exact Or.inl (le_refl _)

/-- C8: along any timestamped operation sequence with non-decreasing times,
every entry always satisfies `accessedOn ≥ createdOn` (entries start with
`accessedOn = createdOn = now` and `accessCount = 0`), and no single
operation ever decreases an entry's `accessCount` — the only way a key's
count can drop is replacement of the entry by a freshly created one, which
ends the old entry's lifetime. -/
theorem lifetime_invariants (t0 : CacheTable α β) (T : Int)
    (ops : List (TableOp α β × Int)) (hinv : TableInv T t0)
    (hmono : timesMono T ops) :
    (∀ p ∈ (run t0 ops).items, p.2.createdOn ≤ p.2.accessedOn) ∧
    (∀ (t : CacheTable α β) (op : TableOp α β) (now : Int), WF t →
      ∀ (k : α) (it it' : CacheItem α β), lookupKey t.items k = some it →
        lookupKey (step t op now).items k = some it' →
        (it.accessCount ≤ it'.accessCount ∨
         (it'.accessCount = 0 ∧ it'.createdOn = now ∧ it'.accessedOn = now))) := by
  constructor
  · intro p hp
    exact (run_TableInv hinv hmono p hp).1
  · intro t op now hwf k it it' h1 h2
    exact step_accessCount hwf h1 h2

/-- Witness for C8: a concrete three-operation run over `exTable`. -/
theorem lifetime_invariants_witness :
    TableInv 0 exTable ∧
    timesMono 0 [(TableOp.add 5 3 55, 1), (TableOp.value 1, 2),
      (TableOp.tick, 6)] ∧
    ((∀ p ∈ (run exTable [(TableOp.add 5 3 55, 1), (TableOp.value 1, 2),
        (TableOp.tick, 6)]).items, p.2.createdOn ≤ p.2.accessedOn) ∧
     (∀ (t : CacheTable Nat Nat) (op : TableOp Nat Nat) (now : Int), WF t →
       ∀ (k : Nat) (it it' : CacheItem Nat Nat),
         lookupKey t.items k = some it →
         lookupKey (step t op now).items k = some it' →
         (it.accessCount ≤ it'.accessCount ∨
          (it'.accessCount = 0 ∧ it'.createdOn = now ∧
           it'.accessedOn = now)))) :=
  ⟨by decide, ⟨by decide, by decide, by decide, trivial⟩,
   lifetime_invariants exTable 0
     [(TableOp.add 5 3 55, 1), (TableOp.value 1, 2), (TableOp.tick, 6)]
     (by decide) ⟨by decide, by decide, by decide, trivial⟩⟩

end Cache2go
